import Mathlib

/-!
Verification of the GoTinyDB chunked file subsystem (files.go).

The development shallowly embeds the file-store code of the repository:
keys are lists of bytes (modelled as Nat, always < 256 by construction),
the badger engine is an association list from keys to stored values, and
the write channel / coordinator pipeline is modelled by applying each
transaction operation to the store in submission order (the coordinator
and the cipher package are not under src/; per the specification the
cipher is an authenticated encryption whose decrypt inverts encrypt, so
the engine is modelled as storing the plaintext values directly).

Byte-lexicographic key order (badger iteration order) is the
lexicographic order on List Nat, which is exactly the order `<` of
Mathlib on lists.
-/

namespace GoTinyDB

/-- First-level key tags, from variables.go (prefixConfig = 0, prefixCollections = 1, ...). -/
def prefixFiles : Nat := 2

def prefixFilesRelated : Nat := 3

/-- Default chunk size from variables.go; the Go value is a mutable global, so the
model threads the current value of the variable through every operation. -/
def defaultFileChuckSize : Nat := 5 * 1000 * 1000

/-- Stands in for blake2b.Sum256 of files.go line 584 (an external library, not code
of this repository): a fixed 32-byte digest of the file id. Only the digest length
and the fact that a single file id always yields the same digest are used anywhere. -/
def derivedID (id : String) : List Nat :=
  ((id.toList.map Char.toNat) ++ List.replicate 32 0).take 32 |>.map (fun b => b % 256)

/-- FileStore.buildFilePrefix (files.go lines 580-613): the engine key for chunk
chunkN of the file id; chunkN < 0 returns the bare per-file prefix, chunkN = 0 the
metadata key, and chunkN >= 1 the key of payload chunk chunkN whose suffix is
chunkN / 256 bytes of 0xFF followed by the byte chunkN mod 256. -/
def buildFilePrefix (id : String) (chunkN : Int) : List Nat :=
  let prefixWithID : List Nat := prefixFiles :: derivedID id
  if chunkN < 0 then prefixWithID
  else if chunkN = 0 then prefixWithID ++ [0]
  else
    let c := chunkN.toNat
    prefixWithID ++ (List.replicate (c / 256) 255 ++ [c % 256])

/-- The chunk-number part of the key produced by buildFilePrefix for chunkN >= 1. -/
def chunkSuffix (n : Nat) : List Nat :=
  List.replicate (n / 256) 255 ++ [n % 256]

theorem derivedID_length (id : String) : (derivedID id).length = 32 := by
  simp [derivedID]

theorem buildFilePrefix_neg (id : String) : buildFilePrefix id (-1) = prefixFiles :: derivedID id := by
  simp [buildFilePrefix]

theorem buildFilePrefix_zero (id : String) :
    buildFilePrefix id 0 = (prefixFiles :: derivedID id) ++ [0] := by
  simp [buildFilePrefix]

theorem buildFilePrefix_pos (id : String) (n : Nat) (h : 1 ≤ n) :
    buildFilePrefix id (n : Int) = (prefixFiles :: derivedID id) ++ chunkSuffix n := by
  unfold buildFilePrefix chunkSuffix
  have h1 : ¬ ((n : Int) < 0) := by omega
  have h2 : ¬ ((n : Int) = 0) := by omega
  simp [h1, h2]

/-- Appending on the left preserves strict lexicographic order of byte strings. -/
theorem lt_append_left {a b : List Nat} (c : List Nat) (h : a < b) : c ++ a < c ++ b := by
  induction c with
  | nil => exact h
  | cons x xs ih => exact List.Lex.cons ih

/-- The chunk suffix is strictly monotone in the chunk number with respect to
byte-lexicographic order: this is the invariant that makes badger iteration visit
chunks in numeric order. -/
theorem chunkSuffix_lt_chunkSuffix {a b : Nat} (h : a < b) : chunkSuffix a < chunkSuffix b := by
  rcases Nat.lt_or_ge (a / 256) (b / 256) with hq | hq
  · -- the suffix of a is compared against a 0xFF (or is a strict prefix)
    have hsplit : b / 256 = a / 256 + (b / 256 - a / 256) := by omega
    rw [chunkSuffix, chunkSuffix, hsplit, List.replicate_add, List.append_assoc]
    apply lt_append_left
    have hd : 1 ≤ b / 256 - a / 256 := by omega
    have hrep : List.replicate (b / 256 - a / 256) 255 ++ [b % 256]
        = 255 :: (List.replicate (b / 256 - a / 256 - 1) 255 ++ [b % 256]) := by
      rcases Nat.exists_eq_add_of_le hd with ⟨k, hk⟩
      rw [hk]
      simp [List.replicate_succ, Nat.add_comm 1 k]
    rw [hrep]
    rcases Nat.lt_or_ge (a % 256) 255 with hr | hr
    · exact List.Lex.rel hr
    · have hr' : a % 256 = 255 := by omega
      rw [hr']
      rcases hcons : List.replicate (b / 256 - a / 256 - 1) 255 ++ [b % 256] with _ | ⟨x, xs⟩
      · exact absurd hcons (by simp)
      · exact List.Lex.cons List.Lex.nil
  · -- equal 0xFF count, so the trailing bytes decide
    have hq' : a / 256 = b / 256 := by
      have := Nat.div_le_div_right (c := 256) h.le
      omega
    have hr : a % 256 < b % 256 := by omega
    rw [chunkSuffix, chunkSuffix, hq']
    exact lt_append_left _ (List.Lex.rel hr)

/-- The metadata suffix 0x00 sorts strictly before every chunk suffix. -/
theorem meta_suffix_lt_chunkSuffix (n : Nat) (h : 1 ≤ n) : [0] < chunkSuffix n := by
  rw [chunkSuffix]
  rcases Nat.eq_zero_or_pos (n / 256) with h0 | hpos
  · have hn : n % 256 = n := Nat.mod_eq_of_lt (by omega)
    rw [h0]
    simpa [hn] using List.Lex.rel (by omega : 0 < n)
  · have hrep : List.replicate (n / 256) 255 ++ [n % 256]
        = 255 :: (List.replicate (n / 256 - 1) 255 ++ [n % 256]) := by
      rcases Nat.exists_eq_add_of_le hpos with ⟨k, hk⟩
      rw [hk]
      simp [List.replicate_succ, Nat.add_comm 1 k]
    rw [hrep]
    exact List.Lex.rel (by omega)

theorem chunkKey_lt_chunkKey (id : String) {a b : Nat} (ha : 1 ≤ a) (h : a < b) :
    buildFilePrefix id (a : Int) < buildFilePrefix id (b : Int) := by
  rw [buildFilePrefix_pos id a ha, buildFilePrefix_pos id b (by omega)]
  exact lt_append_left _ (chunkSuffix_lt_chunkSuffix h)

theorem metaKey_lt_chunkKey (id : String) {n : Nat} (h : 1 ≤ n) :
    buildFilePrefix id 0 < buildFilePrefix id (n : Int) := by
  rw [buildFilePrefix_zero, buildFilePrefix_pos id n h]
  exact lt_append_left _ (meta_suffix_lt_chunkSuffix n h)

theorem chunkKey_ne_chunkKey (id : String) {a b : Nat} (ha : 1 ≤ a) (hb : 1 ≤ b) (h : a ≠ b) :
    buildFilePrefix id (a : Int) ≠ buildFilePrefix id (b : Int) := by
  rcases Nat.lt_or_ge a b with hab | hab
  · exact ne_of_lt (chunkKey_lt_chunkKey id ha hab)
  · exact (ne_of_lt (chunkKey_lt_chunkKey id hb (by omega))).symm

theorem metaKey_ne_chunkKey (id : String) {n : Nat} (h : 1 ≤ n) :
    buildFilePrefix id 0 ≠ buildFilePrefix id (n : Int) :=
  ne_of_lt (metaKey_lt_chunkKey id h)

/-- C2: for any file id and chunk numbers 1 <= a < b the chunk key suffix of a is
strictly lexicographically smaller than that of b, the metadata suffix 0x00 is
strictly smaller than every chunk suffix, and consequently the list consisting of
the metadata key followed by the chunk keys 1..N is strictly ascending in
byte-lexicographic (badger iteration) order: iteration under the file prefix
yields the metadata key first and then the chunks in ascending numeric order
with no gaps. -/
theorem chunk_key_ordering (id : String) (N a b : Nat) (ha : 1 ≤ a) (hab : a < b) :
    chunkSuffix a < chunkSuffix b ∧
    [0] < chunkSuffix a ∧
    List.Pairwise (· < ·)
      (buildFilePrefix id 0 :: (List.range N).map (fun i : Nat => buildFilePrefix id ((i + 1 : Nat) : Int))) := by
  refine ⟨chunkSuffix_lt_chunkSuffix hab, meta_suffix_lt_chunkSuffix a ha, ?_⟩
  rw [List.pairwise_cons]
  constructor
  · intro k hk
    rcases List.mem_map.mp hk with ⟨i, _, rfl⟩
    exact metaKey_lt_chunkKey id (by omega)
  · rw [List.pairwise_map]
    refine (List.pairwise_lt_range N).imp ?_
    intro i j hij
    exact chunkKey_lt_chunkKey id (by omega) (by omega)

theorem chunk_key_ordering_witness :
    1 ≤ 255 ∧ 255 < 256 ∧
    (chunkSuffix 255 < chunkSuffix 256 ∧
     [0] < chunkSuffix 255 ∧
     List.Pairwise (· < ·)
       (buildFilePrefix "f" 0 :: (List.range 3).map (fun i : Nat => buildFilePrefix "f" ((i + 1 : Nat) : Int)))) :=
  ⟨by decide, by decide, chunk_key_ordering "f" 3 255 256 (by decide) (by decide)⟩

/-- Chunk-suffix formula as the specification words it (section 6): the suffix of
chunk n is (n-1)/256 bytes of 0xFF followed by one byte of value ((n-1) mod 256) + 1.
This definition follows the words of the spec, for comparison against the
source-derived buildFilePrefix. -/
def specChunkSuffix (n : Nat) : List Nat :=
  List.replicate ((n - 1) / 256) 255 ++ [((n - 1) % 256) + 1]

/-- C8 counterexample: at chunk number n = 256 the code produces the suffix
0xFF 0x00 (one 0xFF byte, then byte 0), while the formula of the claim produces
zero 0xFF bytes followed by the value 256, which is not even a byte; the two
disagree in content and even in length, so no byte reading of the claimed formula
matches the code. -/
theorem chunk_suffix_spec_counterexample :
    (buildFilePrefix "f" 256).drop 33 = [255, 0] ∧
    specChunkSuffix 256 = [256] ∧
    buildFilePrefix "f" 256 ≠ (prefixFiles :: derivedID "f") ++ specChunkSuffix 256 ∧
    ((buildFilePrefix "f" 256).drop 33).length ≠ (specChunkSuffix 256).length := by
  refine ⟨by decide, by decide, by decide, by decide⟩

/-- C8 amended: for every chunk number n >= 1 the chunk key equals
0x02 followed by the 32-byte digest of the id followed by n / 256 bytes of 0xFF and
one byte of value n mod 256; this agrees with the formula of the claim whenever
256 does not divide n, and differs exactly at the multiples of 256. -/
theorem chunk_key_formula (id : String) (n : Nat) (h : 1 ≤ n) :
    buildFilePrefix id (n : Int)
      = (prefixFiles :: derivedID id) ++ (List.replicate (n / 256) 255 ++ [n % 256]) ∧
    (derivedID id).length = 32 ∧
    (¬ (256 ∣ n) → List.replicate (n / 256) 255 ++ [n % 256] = specChunkSuffix n) := by
  refine ⟨buildFilePrefix_pos id n h, derivedID_length id, ?_⟩
  intro hnd
  have h1 : (n - 1) / 256 = n / 256 := by omega
  have h2 : (n - 1) % 256 + 1 = n % 256 := by omega
  rw [specChunkSuffix, h1, h2]

theorem chunk_key_formula_witness :
    1 ≤ 5 ∧
    (buildFilePrefix "g" (5 : Nat)
       = (prefixFiles :: derivedID "g") ++ (List.replicate (5 / 256) 255 ++ [5 % 256]) ∧
     (derivedID "g").length = 32 ∧
     (¬ (256 ∣ 5) → List.replicate (5 / 256) 255 ++ [5 % 256] = specChunkSuffix 5)) :=
  ⟨by decide, chunk_key_formula "g" 5 (by decide)⟩

/-! ## The engine store and the FileStore operations

The badger engine is an ordered key/value store; the model is an association
list from keys to values, with ascending-key iteration recovered by sorting.
Values reach the engine through the write channel and the coordinator, which
encrypts on ingress, and every read decrypts on egress (cipher.Decrypt); the
coordinator and cipher packages are not under src/, so per the specification
(sections 4.2 and 4.3) writes are modelled as applying each operation in
submission order and values are stored as the plaintext they decrypt to.
Serialized forms (json.Marshal of FileMeta and of []string) are modelled by
storing the structured value itself, with one observable exception kept by the
model: json.Marshal skips the unexported field inWrite, so a stored FileMeta
always carries inWrite = false. The LastModified timestamp carries no
information any claim depends on and is omitted from the model. -/

/-- FileMeta of files.go lines 24-33, without the LastModified timestamp. -/
structure FileMeta where
  ID : String
  Name : String
  Size : Int
  ChuckSize : Nat
  RelatedDocumentID : String
  RelatedDocumentCollection : String
  inWrite : Bool
deriving DecidableEq

/-- A value stored in the engine: a chunk payload, a file metadata record
(json.Marshal of FileMeta), or a related-file id list (json.Marshal of []string). -/
inductive StoreVal where
  | bytes : List Nat → StoreVal
  | fileMeta : FileMeta → StoreVal
  | ids : List String → StoreVal
deriving DecidableEq

/-- The engine contents: an association list from keys to values. -/
abbrev Store := List (List Nat × StoreVal)

/-- Commit of a write operation for key k: the new binding replaces any previous one. -/
def storeSet (s : Store) (k : List Nat) (v : StoreVal) : Store :=
  (k, v) :: s.filter (fun kv => decide (kv.1 ≠ k))

/-- Commit of a delete operation for key k. -/
def storeDel (s : Store) (k : List Nat) : Store :=
  s.filter (fun kv => decide (kv.1 ≠ k))

/-- A point read (txn.Get) of key k. -/
def storeGet (s : Store) (k : List Nat) : Option StoreVal :=
  (s.find? (fun kv => decide (kv.1 = k))).map Prod.snd

/-- json.Marshal of a FileMeta: the unexported inWrite field is not serialized,
so the stored record always reads back with inWrite = false. -/
def marshalMeta (m : FileMeta) : FileMeta :=
  { m with inWrite := false }

/-- FileStore.buildMeta (files.go lines 253-262); fileChuckSize is the current
value of the global FileChuckSize variable. -/
def buildMeta (fileChuckSize : Nat) (id name : String) : FileMeta :=
  { ID := id, Name := name, Size := 0, ChuckSize := fileChuckSize,
    RelatedDocumentID := "", RelatedDocumentCollection := "", inWrite := false }

/-- FileStore.getFileMetaWithTxn (files.go lines 212-240): reads the metadata
record of id, falling back to a fresh buildMeta when the key is absent. -/
def getFileMeta (fileChuckSize : Nat) (s : Store) (id name : String) : FileMeta :=
  match storeGet s (buildFilePrefix id 0) with
  | some (StoreVal.fileMeta m) => m
  | _ => buildMeta fileChuckSize id name

/-- FileStore.putFileMeta (files.go lines 264-292). -/
def putFileMeta (s : Store) (meta : FileMeta) : Store :=
  storeSet s (buildFilePrefix meta.ID 0) (StoreVal.fileMeta (marshalMeta meta))

/-- Modelled from the spec: the 2-byte collection prefix derived from a 32-bit
hash of the collection name (DB.Use and the collection code are not under src/).
Only the leading prefixFilesRelated byte of the related key matters to any proof. -/
def colPrefix (colName : String) : List Nat :=
  [colName.length % 256, (colName.toList.map Char.toNat).sum % 256]

/-- FileStore.buildRelatedID (files.go lines 295-305). -/
def buildRelatedID (colName documentID : String) : List Nat :=
  prefixFilesRelated :: (colPrefix colName ++ documentID.toList.map Char.toNat)

/-- FileStore.getRelatedFileIDsInternal (files.go lines 307-332): the related-file
id list for (colName, documentID), empty when the key is absent. -/
def getRelatedFileIDs (s : Store) (colName documentID : String) : List String :=
  match storeGet s (buildRelatedID colName documentID) with
  | some (StoreVal.ids l) => l
  | _ => []

/-- FileStore.addRelatedFileIDs (files.go lines 342-378) for a single file id. -/
def addRelatedFileIDs (s : Store) (colName documentID fileID : String) : Store :=
  storeSet s (buildRelatedID colName documentID)
    (StoreVal.ids (getRelatedFileIDs s colName documentID ++ [fileID]))

/-- FileStore.deleteRelatedFileIDs (files.go lines 380-433) for a single file id:
every occurrence of fileID is removed from the list; an emptied list deletes the
key, otherwise the shortened list is written back. -/
def deleteRelatedFileIDs (s : Store) (colName documentID fileID : String) : Store :=
  let fileIDs := (getRelatedFileIDs s colName documentID).filter (fun x => decide (x ≠ fileID))
  if fileIDs.isEmpty then storeDel s (buildRelatedID colName documentID)
  else storeSet s (buildRelatedID colName documentID) (StoreVal.ids fileIDs)

/-- FileStore.DeleteFile (files.go lines 525-578): every key under the per-file
prefix is deleted (the read view that enumerates them was opened before the
deletes, and the metadata used for the related-list cleanup is read from that
same pre-delete view), then the file id is removed from the back-reference list
of the metadata related pair. -/
def deleteFile (fileChuckSize : Nat) (s : Store) (id : String) : Store :=
  let storeID := buildFilePrefix id (-1)
  let s1 := s.filter (fun kv => !(List.isPrefixOf storeID kv.1))
  let meta := getFileMeta fileChuckSize s id ""
  deleteRelatedFileIDs s1 meta.RelatedDocumentCollection meta.RelatedDocumentID id

/-- FileStore.writeFileChunk (files.go lines 184-210): refuses content longer
than the chunk size, otherwise commits the chunk under its key. -/
def writeFileChunk (fileChuckSize : Nat) (s : Store) (id : String) (chunk : Nat)
    (content : List Nat) : Option Store :=
  if fileChuckSize < content.length then none
  else some (storeSet s (buildFilePrefix id (chunk : Int)) (StoreVal.bytes content))

/-- The read loop of PutFileRelated (files.go lines 143-170), recursing on a
fuel that the wrapper sets to the payload length, which always suffices since
every pass consumes at least one byte when the chunk size is positive: the
reader is consumed fileChuckSize bytes at a time until exhausted (a bytes
reader returns min(buffer, remaining) bytes per call and the loop stops at 0
bytes read). -/
def chunkifyAux (fileChuckSize : Nat) : Nat → List Nat → List (List Nat)
  | _, [] => []
  | 0, _ :: _ => []
  | Nat.succ n, a :: l =>
    if fileChuckSize = 0 then []
    else (a :: l).take fileChuckSize :: chunkifyAux fileChuckSize n ((a :: l).drop fileChuckSize)

def chunkify (fileChuckSize : Nat) (p : List Nat) : List (List Nat) :=
  chunkifyAux fileChuckSize p.length p

/-- The chunk-writing part of the PutFileRelated loop: writes the successive
pieces under ascending chunk numbers starting at nChunk, accumulating the
number of bytes written. -/
def putFileLoop (fileChuckSize : Nat) (s : Store) (id : String) (nChunk : Nat) :
    List (List Nat) → Option (Nat × Store)
  | [] => some (0, s)
  | c :: rest =>
    match writeFileChunk fileChuckSize s id nChunk c with
    | none => none
    | some s' =>
      match putFileLoop fileChuckSize s' id (nChunk + 1) rest with
      | none => none
      | some (n, s'') => some (c.length + n, s'')

/-- The metadata record PutFileRelated holds while writing (files.go lines
121-133): a fresh buildMeta with inWrite set, and the related pair recorded
when a collection name is given. -/
def putFileInitMeta (fileChuckSize : Nat) (id name colName documentID : String) : FileMeta :=
  if colName = "" then { buildMeta fileChuckSize id name with inWrite := true }
  else
    { buildMeta fileChuckSize id name with
        inWrite := true
        RelatedDocumentCollection := colName
        RelatedDocumentID := documentID }

/-- The store PutFileRelated starts writing into (files.go lines 119-133): the
previous file under the id is deleted, and with a collection name the file id is
appended to the back-reference list. -/
def putFileInitStore (fileChuckSize : Nat) (s : Store) (id colName documentID : String) : Store :=
  if colName = "" then deleteFile fileChuckSize s id
  else addRelatedFileIDs (deleteFile fileChuckSize s id) colName documentID id

/-- FileStore.PutFileRelated (files.go lines 118-182): deletes any previous file
under the id, registers the back reference when a collection is given, writes an
in-write metadata record, streams the payload into chunks 1..N, and finishes
with the metadata record holding the final size. Returns the bytes written. -/
def putFileRelated (fileChuckSize : Nat) (s : Store) (id name : String) (p : List Nat)
    (colName documentID : String) : Option (Nat × Store) :=
  match putFileLoop fileChuckSize
      (putFileMeta (putFileInitStore fileChuckSize s id colName documentID)
        (putFileInitMeta fileChuckSize id name colName documentID))
      id 1 (chunkify fileChuckSize p) with
  | none => none
  | some (n, s3) => some (n, putFileMeta s3
      { putFileInitMeta fileChuckSize id name colName documentID with
          Size := (n : Int), inWrite := false })

/-- The key range visited by an iterator seeked to chunk fromChunk of the file
and validated against the per-file prefix: keys under the prefix that are not
byte-lexicographically before the seek key. -/
def inFileRange (id : String) (fromChunk : Nat) (k : List Nat) : Bool :=
  List.isPrefixOf (buildFilePrefix id (-1)) k
    && !(decide (k < buildFilePrefix id (fromChunk : Int)))

/-- The keys of the store that the iterator of chunksFrom visits, unsorted. -/
def fileRangeKeys (s : Store) (id : String) (fromChunk : Nat) : List (List Nat) :=
  ((s.map Prod.fst).filter (inFileRange id fromChunk)).dedup

/-- The payload carried by a stored value (chunk values are bytes). -/
def valBytes : StoreVal → List Nat
  | StoreVal.bytes b => b
  | _ => []

/-- The successive chunk payloads a badger iterator yields when seeked to chunk
fromChunk of the file and iterated in ascending key order under the per-file
prefix (the common iteration shape of ReadFile and readWriter.Read). -/
def chunksFrom (s : Store) (id : String) (fromChunk : Nat) : List (List Nat) :=
  (List.insertionSort (· ≤ ·) (fileRangeKeys s id fromChunk)).map
    (fun k => valBytes ((storeGet s k).getD (StoreVal.bytes [])))

/-- FileStore.ReadFile (files.go lines 436-469): seeks to chunk 1 and streams
every chunk under the per-file prefix, in ascending key order, to the writer. -/
def readFile (s : Store) (id : String) : List Nat :=
  (chunksFrom s id 1).flatten

/-! ## Store lemmas -/

theorem find?_filter_ne (s : Store) (k k' : List Nat) (h : k' ≠ k) :
    List.find? (fun kv => decide (kv.1 = k')) (s.filter (fun kv => decide (kv.1 ≠ k)))
      = List.find? (fun kv => decide (kv.1 = k')) s := by
  rw [List.find?_filter]
  congr 1
  funext kv
  by_cases hk : kv.1 = k'
  · simp [hk, h]
  · simp [hk]

theorem storeGet_storeSet_self (s : Store) (k : List Nat) (v : StoreVal) :
    storeGet (storeSet s k v) k = some v := by
  simp [storeGet, storeSet, List.find?_cons]

theorem storeGet_storeSet_ne (s : Store) (k k' : List Nat) (v : StoreVal) (h : k' ≠ k) :
    storeGet (storeSet s k v) k' = storeGet s k' := by
  simp only [storeGet, storeSet]
  rw [List.find?_cons_of_neg _ (by simp [Ne.symm h]), find?_filter_ne s k k' h]

theorem storeGet_storeDel_self (s : Store) (k : List Nat) :
    storeGet (storeDel s k) k = none := by
  simp only [storeGet, storeDel]
  rw [List.find?_filter]
  have hfun : (fun kv : List Nat × StoreVal =>
      decide ((decide (kv.1 ≠ k) : Bool) = true ∧ (decide (kv.1 = k) : Bool) = true))
      = fun _ => false := by
    funext kv
    by_cases hk : kv.1 = k
    · simp [hk]
    · simp [hk]
  rw [hfun]
  simp

theorem map_fst_filter_ne (s : Store) (k : List Nat) :
    ((s.filter (fun kv => decide (kv.1 ≠ k))).map Prod.fst)
      = (s.map Prod.fst).filter (fun x => decide (x ≠ k)) := by
  induction s with
  | nil => rfl
  | cons a as ih =>
    simp only [ne_eq, decide_not] at ih
    by_cases ha : a.1 = k
    · simp [List.filter_cons, ha, ih]
    · simp [List.filter_cons, ha, ih]

/-! ## Key-range lemmas -/

theorem isPrefixOf_chunkKey (id : String) (n : Nat) (h : 1 ≤ n) :
    List.isPrefixOf (buildFilePrefix id (-1)) (buildFilePrefix id (n : Int)) = true := by
  rw [List.isPrefixOf_iff_prefix, buildFilePrefix_neg, buildFilePrefix_pos id n h]
  exact ⟨chunkSuffix n, rfl⟩

theorem isPrefixOf_relatedID (id colName documentID : String) :
    List.isPrefixOf (buildFilePrefix id (-1)) (buildRelatedID colName documentID) = false := by
  rw [buildFilePrefix_neg, buildRelatedID]
  simp [List.isPrefixOf, prefixFiles, prefixFilesRelated]

theorem inFileRange_chunkKey (id : String) (fromChunk n : Nat) (hf : 1 ≤ fromChunk)
    (h1 : 1 ≤ n) (hn : fromChunk ≤ n) :
    inFileRange id fromChunk (buildFilePrefix id (n : Int)) = true := by
  rw [inFileRange, isPrefixOf_chunkKey id n h1]
  have : ¬ (buildFilePrefix id (n : Int) < buildFilePrefix id (fromChunk : Int)) := by
    rcases Nat.eq_or_lt_of_le hn with he | hl
    · subst he; exact lt_irrefl _
    · exact not_lt.mpr (le_of_lt (chunkKey_lt_chunkKey id hf hl))
  simp [this]

theorem inFileRange_metaKey (id : String) (fromChunk : Nat) (hf : 1 ≤ fromChunk) :
    inFileRange id fromChunk (buildFilePrefix id 0) = false := by
  rw [inFileRange]
  have : buildFilePrefix id 0 < buildFilePrefix id (fromChunk : Int) :=
    metaKey_lt_chunkKey id hf
  simp [this]

theorem inFileRange_relatedID (id colName documentID : String) (fromChunk : Nat) :
    inFileRange id fromChunk (buildRelatedID colName documentID) = false := by
  rw [inFileRange, isPrefixOf_relatedID]
  simp

/-! ## C3: deletion completeness -/

theorem mem_deleteFile_not_prefixed (fileChuckSize : Nat) (s : Store) (id : String) :
    ∀ kv ∈ deleteFile fileChuckSize s id,
      List.isPrefixOf (buildFilePrefix id (-1)) kv.1 = false := by
  intro kv hkv
  unfold deleteFile deleteRelatedFileIDs at hkv
  set s1 := s.filter (fun kv => !(List.isPrefixOf (buildFilePrefix id (-1)) kv.1)) with hs1
  have hmem_s1 : ∀ kv' ∈ s1, List.isPrefixOf (buildFilePrefix id (-1)) kv'.1 = false := by
    intro kv' h'
    rcases List.mem_filter.mp h' with ⟨_, hp⟩
    simpa using hp
  by_cases hempty :
      (((getRelatedFileIDs s1 (getFileMeta fileChuckSize s id "").RelatedDocumentCollection
          (getFileMeta fileChuckSize s id "").RelatedDocumentID).filter
            (fun x => decide (x ≠ id))).isEmpty) = true
  · rw [if_pos hempty] at hkv
    exact hmem_s1 kv (List.mem_filter.mp hkv).1
  · rw [if_neg hempty] at hkv
    rcases List.mem_cons.mp hkv with hhead | htail
    · rw [hhead]
      exact isPrefixOf_relatedID id _ _
    · exact hmem_s1 kv (List.mem_filter.mp htail).1

/-- C3: after DeleteFile(id) no engine key under the per-file prefix remains
(neither the metadata key nor any chunk key), and the back-reference list of the
(related collection, related document) pair recorded in the file metadata no
longer contains the file id. -/
theorem deleteFile_complete (fileChuckSize : Nat) (s : Store) (id : String) :
    ((deleteFile fileChuckSize s id).filter
        (fun kv => List.isPrefixOf (buildFilePrefix id (-1)) kv.1)) = [] ∧
    id ∉ getRelatedFileIDs (deleteFile fileChuckSize s id)
          (getFileMeta fileChuckSize s id "").RelatedDocumentCollection
          (getFileMeta fileChuckSize s id "").RelatedDocumentID := by
  constructor
  · rw [List.filter_eq_nil_iff]
    intro kv hkv
    rw [mem_deleteFile_not_prefixed fileChuckSize s id kv hkv]
    simp
  · unfold deleteFile deleteRelatedFileIDs
    set s1 := s.filter (fun kv => !(List.isPrefixOf (buildFilePrefix id (-1)) kv.1)) with hs1
    set colName := (getFileMeta fileChuckSize s id "").RelatedDocumentCollection with hcol
    set documentID := (getFileMeta fileChuckSize s id "").RelatedDocumentID with hdoc
    by_cases hempty :
        (((getRelatedFileIDs s1 colName documentID).filter (fun x => decide (x ≠ id))).isEmpty) = true
    · rw [if_pos hempty]
      rw [getRelatedFileIDs, storeGet_storeDel_self]
      simp
    · rw [if_neg hempty]
      rw [getRelatedFileIDs, storeGet_storeSet_self]
      intro hmem
      have := (List.mem_filter.mp hmem).2
      simp at this

/-! ## C1: file round trip -/

/-- The keys of a store that a chunk iterator seeked to chunk 1 visits. -/
def rangeKeysOf (id : String) (s : Store) : List (List Nat) :=
  (s.map Prod.fst).filter (inFileRange id 1)

theorem filter_ne_of_not_mem {l : List (List Nat)} {k : List Nat} (h : k ∉ l) :
    l.filter (fun x => decide (x ≠ k)) = l := by
  rw [List.filter_eq_self]
  intro a ha
  simp only [decide_eq_true_eq]
  intro he
  exact h (he ▸ ha)

theorem rangeKeysOf_storeSet_in (id : String) (s : Store) (k : List Nat) (v : StoreVal)
    (hk : inFileRange id 1 k = true) :
    rangeKeysOf id (storeSet s k v) = k :: (rangeKeysOf id s).filter (fun x => decide (x ≠ k)) := by
  unfold rangeKeysOf storeSet
  simp only [List.map_cons]
  rw [map_fst_filter_ne, List.filter_cons_of_pos hk, List.filter_comm]

theorem rangeKeysOf_storeSet_out (id : String) (s : Store) (k : List Nat) (v : StoreVal)
    (hk : inFileRange id 1 k = false) :
    rangeKeysOf id (storeSet s k v) = (rangeKeysOf id s).filter (fun x => decide (x ≠ k)) := by
  unfold rangeKeysOf storeSet
  simp only [List.map_cons]
  rw [map_fst_filter_ne, List.filter_cons_of_neg (by simp [hk]), List.filter_comm]

theorem rangeKeysOf_deleteFile (fileChuckSize : Nat) (s : Store) (id : String) :
    rangeKeysOf id (deleteFile fileChuckSize s id) = [] := by
  rw [List.eq_nil_iff_forall_not_mem]
  intro k hk
  rcases List.mem_filter.mp hk with ⟨hmem, hinr⟩
  rcases List.mem_map.mp hmem with ⟨kv, hkv, rfl⟩
  have hnp := mem_deleteFile_not_prefixed fileChuckSize s id kv hkv
  rw [inFileRange, hnp] at hinr
  simp at hinr

/-! Splitting a payload into chunks. -/

theorem chunkifyAux_nil (fileChuckSize fuel : Nat) : chunkifyAux fileChuckSize fuel [] = [] := by
  cases fuel <;> rfl

theorem chunkifyAux_flatten (fileChuckSize : Nat) (hf : 1 ≤ fileChuckSize) :
    ∀ (fuel : Nat) (p : List Nat), p.length ≤ fuel →
      (chunkifyAux fileChuckSize fuel p).flatten = p := by
  intro fuel
  induction fuel with
  | zero =>
    intro p hp
    have hpe : p = [] := List.eq_nil_of_length_eq_zero (by omega)
    rw [hpe, chunkifyAux_nil]
    rfl
  | succ n ih =>
    intro p hp
    rcases eq_or_ne p [] with hpe | hpe
    · rw [hpe, chunkifyAux_nil]
      rfl
    · rcases List.exists_cons_of_ne_nil hpe with ⟨a, l, rfl⟩
      rw [chunkifyAux, if_neg (by omega)]
      rw [List.flatten_cons, ih ((a :: l).drop fileChuckSize) (by simp at hp ⊢; omega)]
      exact List.take_append_drop fileChuckSize (a :: l)

theorem chunkify_flatten (fileChuckSize : Nat) (hf : 1 ≤ fileChuckSize)
    (p : List Nat) : (chunkify fileChuckSize p).flatten = p :=
  chunkifyAux_flatten fileChuckSize hf p.length p le_rfl

theorem chunkify_length_le (fileChuckSize : Nat) (p : List Nat) :
    ∀ c ∈ chunkify fileChuckSize p, c.length ≤ fileChuckSize := by
  rw [chunkify]
  generalize p.length = fuel
  induction fuel generalizing p with
  | zero =>
    rw [show chunkifyAux fileChuckSize 0 p = [] from by cases p <;> rfl]
    intro c hc
    exact absurd hc (List.not_mem_nil c)
  | succ n ih =>
    rcases eq_or_ne p [] with hpe | hpe
    · rw [hpe, chunkifyAux_nil]
      intro c hc
      exact absurd hc (List.not_mem_nil c)
    · rcases List.exists_cons_of_ne_nil hpe with ⟨a, l, rfl⟩
      by_cases hz : fileChuckSize = 0
      · rw [chunkifyAux, if_pos hz]
        intro c hc
        exact absurd hc (List.not_mem_nil c)
      · rw [chunkifyAux, if_neg hz]
        intro c hc
        rcases List.mem_cons.mp hc with hh | ht
        · rw [hh]
          simp
        · exact ih ((a :: l).drop fileChuckSize) c ht

/-! The chunk-writing loop. -/

theorem putFileLoop_spec (fcs : Nat) (id : String) :
    ∀ (cs : List (List Nat)) (j : Nat) (s : Store),
      1 ≤ j →
      (∀ c ∈ cs, c.length ≤ fcs) →
      (∀ i, i < cs.length → buildFilePrefix id ((j + i : Nat) : Int) ∉ rangeKeysOf id s) →
      ∃ s', putFileLoop fcs s id j cs = some ((cs.map List.length).sum, s') ∧
        rangeKeysOf id s' = ((List.range cs.length).map
            (fun i : Nat => buildFilePrefix id ((j + i : Nat) : Int))).reverse ++ rangeKeysOf id s ∧
        (∀ i, ∀ hi : i < cs.length,
          storeGet s' (buildFilePrefix id ((j + i : Nat) : Int)) = some (StoreVal.bytes cs[i])) ∧
        (∀ k, (∀ i, i < cs.length → k ≠ buildFilePrefix id ((j + i : Nat) : Int)) →
          storeGet s' k = storeGet s k) := by
  intro cs
  induction cs with
  | nil =>
    intro j s hj hlen hfresh
    refine ⟨s, rfl, by simp, ?_, fun k _ => rfl⟩
    intro i hi
    exact absurd hi (by simp)
  | cons c rest ih =>
    intro j s hj hlen hfresh
    have hc : ¬ (fcs < c.length) := not_lt.mpr (hlen c (List.mem_cons_self _ _))
    have hInR : inFileRange id 1 (buildFilePrefix id (j : Int)) = true :=
      inFileRange_chunkKey id 1 j le_rfl hj hj
    have hfreshj : buildFilePrefix id (j : Int) ∉ rangeKeysOf id s := by
      have h0 := hfresh 0 (by simp)
      simpa using h0
    have hrk1 : rangeKeysOf id (storeSet s (buildFilePrefix id (j : Int)) (StoreVal.bytes c))
        = buildFilePrefix id (j : Int) :: rangeKeysOf id s := by
      rw [rangeKeysOf_storeSet_in id s _ _ hInR, filter_ne_of_not_mem hfreshj]
    have hfresh1 : ∀ i, i < rest.length →
        buildFilePrefix id ((j + 1 + i : Nat) : Int)
          ∉ rangeKeysOf id (storeSet s (buildFilePrefix id (j : Int)) (StoreVal.bytes c)) := by
      intro i hi
      rw [hrk1]
      intro hmem
      rcases List.mem_cons.mp hmem with he | hm
      · exact chunkKey_ne_chunkKey id (a := j + 1 + i) (b := j) (by omega) (by omega) (by omega) he
      · have hne := hfresh (i + 1) (by simpa using Nat.succ_lt_succ hi)
        rw [show j + (i + 1) = j + 1 + i from by omega] at hne
        exact hne hm
    obtain ⟨s', hloop, hrk', hget', hold'⟩ :=
      ih (j + 1) (storeSet s (buildFilePrefix id (j : Int)) (StoreVal.bytes c))
        (by omega) (fun c' h' => hlen c' (List.mem_cons_of_mem _ h')) hfresh1
    refine ⟨s', ?_, ?_, ?_, ?_⟩
    · simp only [putFileLoop, writeFileChunk, if_neg hc]
      rw [hloop]
      simp
    · rw [hrk', hrk1]
      rw [List.length_cons, List.range_succ_eq_map, List.map_cons]
      rw [List.reverse_cons, List.append_assoc]
      simp only [List.map_map, Nat.add_zero]
      congr 2
      apply List.map_congr_left
      intro i _
      simp only [Function.comp_apply, Nat.succ_eq_add_one]
      rw [show j + (i + 1) = j + 1 + i from by omega]
    · intro i hi
      cases i with
      | zero =>
        have hne0 : ∀ i', i' < rest.length →
            buildFilePrefix id ((j + 0 : Nat) : Int) ≠ buildFilePrefix id ((j + 1 + i' : Nat) : Int) :=
          fun i' _ => chunkKey_ne_chunkKey id (by omega) (by omega) (by omega)
        rw [hold' _ hne0]
        rw [show ((j + 0 : Nat) : Int) = (j : Int) from by omega]
        rw [storeGet_storeSet_self]
        rfl
      | succ i' =>
        have hi' : i' < rest.length := by simpa using hi
        have hg := hget' i' hi'
        rw [show j + 1 + i' = j + (i' + 1) from by omega] at hg
        simpa using hg
    · intro k hk
      have htail : ∀ i, i < rest.length → k ≠ buildFilePrefix id ((j + 1 + i : Nat) : Int) := by
        intro i hi
        have hne := hk (i + 1) (by simpa using Nat.succ_lt_succ hi)
        rw [show j + (i + 1) = j + 1 + i from by omega] at hne
        exact hne
      rw [hold' k htail, storeGet_storeSet_ne]
      have hne := hk 0 (by simp)
      simpa using hne

theorem putFileInitMeta_ID (fileChuckSize : Nat) (id name colName documentID : String) :
    (putFileInitMeta fileChuckSize id name colName documentID).ID = id := by
  unfold putFileInitMeta
  by_cases hcol : colName = "" <;> simp [hcol, buildMeta]

theorem rangeKeysOf_putFileInitStore (fileChuckSize : Nat) (s : Store)
    (id colName documentID : String) :
    rangeKeysOf id (putFileInitStore fileChuckSize s id colName documentID) = [] := by
  unfold putFileInitStore
  by_cases hcol : colName = ""
  · simp only [if_pos hcol]
    exact rangeKeysOf_deleteFile fileChuckSize s id
  · simp only [if_neg hcol]
    rw [addRelatedFileIDs,
      rangeKeysOf_storeSet_out id _ _ _ (inFileRange_relatedID id colName documentID 1),
      rangeKeysOf_deleteFile]
    rfl

/-- Sorting in ascending key order undoes the reversal the prepending store
writes produced: the insertion sort of a reversed strictly ascending key list is
the ascending list itself. -/
theorem insertionSort_of_rev_sorted {keys : List (List Nat)}
    (hs : List.Pairwise (· < ·) keys) :
    List.insertionSort (· ≤ ·) keys.reverse = keys := by
  apply List.eq_of_perm_of_sorted (r := (· ≤ ·))
  · exact (List.perm_insertionSort _ _).trans (List.reverse_perm keys)
  · exact List.sorted_insertionSort _ _
  · exact hs.imp le_of_lt

theorem pairwise_chunkKeys (id : String) (j N : Nat) (hj : 1 ≤ j) :
    List.Pairwise (· < ·)
      ((List.range N).map (fun i : Nat => buildFilePrefix id ((j + i : Nat) : Int))) := by
  rw [List.pairwise_map]
  refine (List.pairwise_lt_range N).imp ?_
  intro a b hab
  exact chunkKey_lt_chunkKey id (by omega) (by omega)

theorem fileRangeKeys_eq_rangeKeysOf (s : Store) (id : String) :
    fileRangeKeys s id 1 = (rangeKeysOf id s).dedup := rfl

/-- C1: from every store state (in particular one still holding a larger file
under the same id), PutFileRelated(id, P) succeeds, returns n = len(P), and a
subsequent ReadFile(id) yields exactly P byte for byte. -/
theorem put_read_roundtrip (fcs : Nat) (hf : 1 ≤ fcs) (s : Store)
    (id name colName documentID : String) (p : List Nat) :
    ∃ s', putFileRelated fcs s id name p colName documentID = some (p.length, s')
      ∧ readFile s' id = p := by
  set meta1 := putFileInitMeta fcs id name colName documentID with hm1
  set s2 := putFileMeta (putFileInitStore fcs s id colName documentID) meta1 with hs2
  have hID : meta1.ID = id := putFileInitMeta_ID fcs id name colName documentID
  have hrk2 : rangeKeysOf id s2 = [] := by
    rw [hs2]
    simp only [putFileMeta]
    rw [hID, rangeKeysOf_storeSet_out id _ _ _ (inFileRange_metaKey id 1 le_rfl),
      rangeKeysOf_putFileInitStore]
    rfl
  have hlen' : ∀ c ∈ chunkify fcs p, c.length ≤ fcs :=
    chunkify_length_le fcs p
  have hfresh : ∀ i, i < (chunkify fcs p).length →
      buildFilePrefix id ((1 + i : Nat) : Int) ∉ rangeKeysOf id s2 := by
    rw [hrk2]
    intro i _
    exact List.not_mem_nil _
  obtain ⟨s3, hloop, hrk3, hget3, _⟩ :=
    putFileLoop_spec fcs id (chunkify fcs p) 1 s2 le_rfl hlen' hfresh
  have hsum : ((chunkify fcs p).map List.length).sum = p.length := by
    rw [← List.length_flatten, chunkify_flatten fcs hf p]
  have hput : putFileRelated fcs s id name p colName documentID
      = some (p.length, putFileMeta s3 { meta1 with Size := (p.length : Int), inWrite := false }) := by
    unfold putFileRelated
    rw [← hm1, ← hs2, hloop, hsum]
  refine ⟨putFileMeta s3 { meta1 with Size := (p.length : Int), inWrite := false }, hput, ?_⟩
  -- keys of the final store under the file range are exactly the chunk keys, newest first
  have hIDF : ({ meta1 with Size := (p.length : Int), inWrite := false } : FileMeta).ID = id := hID
  have hrk4 : rangeKeysOf id
      (putFileMeta s3 { meta1 with Size := (p.length : Int), inWrite := false })
      = (((List.range (chunkify fcs p).length).map
          (fun i : Nat => buildFilePrefix id ((1 + i : Nat) : Int))).reverse) := by
    simp only [putFileMeta]
    rw [hIDF, rangeKeysOf_storeSet_out id _ _ _ (inFileRange_metaKey id 1 le_rfl), hrk3, hrk2]
    rw [List.append_nil]
    apply filter_ne_of_not_mem
    intro hmem
    rw [List.mem_reverse] at hmem
    rcases List.mem_map.mp hmem with ⟨i, _, he⟩
    exact metaKey_ne_chunkKey id (n := 1 + i) (by omega) he.symm
  have hpair : List.Pairwise (· < ·)
      ((List.range (chunkify fcs p).length).map
        (fun i : Nat => buildFilePrefix id ((1 + i : Nat) : Int))) :=
    pairwise_chunkKeys id 1 (chunkify fcs p).length le_rfl
  have hnodup : (((List.range (chunkify fcs p).length).map
      (fun i : Nat => buildFilePrefix id ((1 + i : Nat) : Int))).reverse).Nodup :=
    List.nodup_reverse.mpr (hpair.imp ne_of_lt)
  rw [readFile, chunksFrom, fileRangeKeys_eq_rangeKeysOf, hrk4,
    List.dedup_eq_self.mpr hnodup, insertionSort_of_rev_sorted hpair]
  have hvals : ((List.range (chunkify fcs p).length).map
      (fun i : Nat => buildFilePrefix id ((1 + i : Nat) : Int))).map
        (fun k => valBytes ((storeGet
          (putFileMeta s3 { meta1 with Size := (p.length : Int), inWrite := false }) k).getD
            (StoreVal.bytes []))) = chunkify fcs p := by
    rw [List.map_map]
    apply List.ext_getElem
    · simp
    · intro i h1 h2
      simp only [List.getElem_map, List.getElem_range, Function.comp_apply]
      have hne : buildFilePrefix id ((1 + i : Nat) : Int) ≠ buildFilePrefix id 0 :=
        (metaKey_ne_chunkKey id (n := 1 + i) (by omega)).symm
      simp only [putFileMeta]
      rw [hIDF, storeGet_storeSet_ne _ _ _ _ hne,
        hget3 i (by simpa using h1)]
      rfl
  rw [hvals]
  exact chunkify_flatten fcs hf p

/-! ## The reader/writer handle (readWriter of files.go)

The handle state: its metadata copy, the most-recently decrypted chunk cache
(nil in Go is Option.none here), the number of the block the cache was filled
from, the current position, and the writer flag. The dead-man timer and the
badger view transaction carry no data any claim depends on: the store the
transaction reads is passed to each operation explicitly. All positions that
reach a read or a write are non-negative in every modelled flow (checkReadWriteAt
and the position updates keep them so), so the int64 divisions of Go coincide
with the Nat divisions used here. -/

structure readWriter where
  meta : FileMeta
  cache : Option (List Nat)
  cachedChunk : Int
  currentPosition : Int
  writer : Bool
deriving DecidableEq

/-- Error conditions of the handle operations (files.go error returns). -/
inductive FileErr where
  | offsetTooBig
  | eof
  | whenceNotRecognized
  | outOfFile
deriving DecidableEq

/-- readWriter.getBlockAndInsidePosition (files.go lines 953-955). -/
def getBlockAndInsidePosition (m : FileMeta) (offset : Int) : Nat × Nat :=
  (offset.toNat / m.ChuckSize + 1, offset.toNat % m.ChuckSize)

/-- readWriter.checkReadWriteAt (files.go lines 731-736): the offset must be
strictly inside the file ("the offset can not be equal or bigger than the file"). -/
def checkReadWriteAt (m : FileMeta) (off : Int) : Option FileErr :=
  if m.Size ≤ off then some FileErr.offsetTooBig else none

/-- readWriter.getExistingBlock (files.go lines 749-767): the decrypted content
of chunk blockN, empty when the chunk key is absent. -/
def getExistingBlock (s : Store) (id : String) (blockN : Nat) : List Nat :=
  match storeGet s (buildFilePrefix id (blockN : Int)) with
  | some v => valBytes v
  | none => []

/-- The chunk contents the Read loop of files.go lines 676-722 consumes: the
stored chunks from the seek block onward, with the head replaced by the cache
when the cache check of line 685 hits (block equal to cachedChunk, cache not nil). -/
def effectiveChunks (rw : readWriter) (s : Store) (block : Nat) : List (List Nat) :=
  match chunksFrom s rw.meta.ID block with
  | [] => []
  | c :: rest =>
    match rw.cache with
    | some cacheVal => if rw.cachedChunk = (block : Int) then cacheVal :: rest else c :: rest
    | none => c :: rest

/-- One pass of the Read iteration (files.go lines 676-728): chunks accumulate
in the buffer (the first sliced from the inside offset) until the destination
length is reached, in which case Read returns len(dest) and advances; an
exhausted iterator returns the buffer with io.EOF. The last component tracks the
chunk content most recently fetched (not served from cache), which becomes the
new cache. -/
def readLoop (destLen inside : Nat) (hit : Bool) :
    List (List Nat) → List Nat → Bool → Nat × Option FileErr × List Nat × Option (List Nat)
  | [], buffer, _ => (buffer.length, some FileErr.eof, buffer, none)
  | c :: rest, buffer, first =>
    let toAdd := if first then c.drop inside else c
    let buffer' := buffer ++ toAdd
    let fetched : Option (List Nat) := if first && hit then none else some c
    if destLen ≤ buffer'.length then (destLen, none, buffer'.take destLen, fetched)
    else
      match readLoop destLen inside hit rest buffer' false with
      | (n, e, d, lf) => (n, e, d, lf.orElse (fun _ => fetched))

/-- readWriter.Read (files.go lines 662-729). Returns the bytes copied into
dest, the error (io.EOF when the file is exhausted), the copied data, and the
updated handle: on EOF the current position is reset to 0, otherwise it advances
by len(dest); the cache takes the last fetched chunk, labelled with the starting
block number (the loop never updates the block variable). -/
def rwRead (rw : readWriter) (s : Store) (destLen : Nat) :
    Nat × Option FileErr × List Nat × readWriter :=
  let bi := getBlockAndInsidePosition rw.meta rw.currentPosition
  let hit : Bool := match rw.cache with
    | some _ => decide (rw.cachedChunk = (bi.1 : Int))
    | none => false
  let r := readLoop destLen bi.2 hit (effectiveChunks rw s bi.1) [] true
  let rwCache := match r.2.2.2 with
    | some v => { rw with cache := some v, cachedChunk := (bi.1 : Int) }
    | none => rw
  match r.2.1 with
  | some e => (r.1, some e, r.2.2.1, { rwCache with currentPosition := 0 })
  | none => (r.1, none, r.2.2.1,
      { rwCache with currentPosition := rw.currentPosition + (r.1 : Int) })

/-- readWriter.ReadAt (files.go lines 739-747): a failed checkReadWriteAt
returns zero bytes and the offset error with the handle untouched; otherwise the
position moves to off and Read runs. -/
def rwReadAt (rw : readWriter) (s : Store) (destLen : Nat) (off : Int) :
    Nat × Option FileErr × List Nat × readWriter :=
  match checkReadWriteAt rw.meta off with
  | some e => (0, some e, [], rw)
  | none => rwRead { rw with currentPosition := off } s destLen

/-- io.SeekStart. -/
def seekStart : Nat := 0

/-- io.SeekCurrent. -/
def seekCurrent : Nat := 1

/-- io.SeekEnd. -/
def seekEnd : Nat := 2

/-- readWriter.Seek (files.go lines 914-932): the target position is offset,
current + offset, or size MINUS offset by whence; an unrecognized whence or an
out-of-range target sets the error, and the current position is set to the
target unconditionally, error or not. -/
def rwSeek (rw : readWriter) (offset : Int) (whence : Nat) :
    Int × Option FileErr × readWriter :=
  let n : Int :=
    if whence = seekStart then offset
    else if whence = seekCurrent then rw.currentPosition + offset
    else if whence = seekEnd then rw.meta.Size - offset
    else 0
  let err0 : Option FileErr :=
    if whence = seekStart ∨ whence = seekCurrent ∨ whence = seekEnd then none
    else some FileErr.whenceNotRecognized
  let err : Option FileErr :=
    if n > rw.meta.Size ∨ n < 0 then some FileErr.outOfFile else err0
  (n, err, { rw with currentPosition := n })

/-- The full-chunk tail loop of readWriter.Write (files.go lines 809-840),
recursing on a fuel the wrapper sets to the remainder length plus one, which
always suffices since every non-final pass consumes a full positive chunk: full
chunks are written without re-reading until the final short piece, which is
merged with the tail of the existing block content when that content is at least
as long. A remainder hitting the chunk boundary exactly makes one more pass that
rewrites the existing next block (or an empty chunk when none exists). The
exhausted-fuel arm is unreachable for a positive chunk size (with chunk size 0
the Go loop would not terminate). -/
def writeLoopAux (fcs : Nat) (id : String) : Nat → Store → Nat → List Nat → Option Store
  | 0, _, _, _ => none
  | Nat.succ fuel, s, block, rest =>
    if rest.length < fcs then
      let valAsBytes := getExistingBlock s id block
      let nextToWrite := if valAsBytes.length ≥ rest.length
        then rest ++ valAsBytes.drop rest.length else rest
      writeFileChunk fcs s id block nextToWrite
    else
      match writeFileChunk fcs s id block (rest.take fcs) with
      | none => none
      | some s' => writeLoopAux fcs id fuel s' (block + 1) (rest.drop fcs)

def writeLoop (fcs : Nat) (s : Store) (id : String) (block : Nat)
    (rest : List Nat) : Option Store :=
  writeLoopAux fcs id (rest.length + 1) s block rest

/-- The chunk-splicing body of readWriter.Write (files.go lines 769-841), before
the deferred afterWrite. A payload fitting strictly inside the free space of the
current block splices into it preserving any tail; otherwise the first block is
filled to the boundary and the loop continues. The error path (a stored chunk
longer than the chunk size, impossible in any store the code itself wrote) is
collapsed to none. -/
def rwWriteBody (fcs : Nat) (rw : readWriter) (s : Store) (p : List Nat) :
    Option Store :=
  let bi := getBlockAndInsidePosition rw.meta rw.currentPosition
  let block := bi.1
  let inside := bi.2
  let valAsBytes := getExistingBlock s rw.meta.ID block
  if fcs - inside > p.length then
    let toWrite := (if inside ≤ valAsBytes.length then valAsBytes.take inside else [])
      ++ p ++ (if inside + p.length < valAsBytes.length
               then valAsBytes.drop (inside + p.length) else [])
    writeFileChunk fcs s rw.meta.ID block toWrite
  else
    match writeFileChunk fcs s rw.meta.ID block
        (valAsBytes.take inside ++ p.take (fcs - inside)) with
    | none => none
    | some s1 => writeLoop fcs s1 rw.meta.ID (block + 1) (p.drop (fcs - inside))

/-- readWriter.afterWrite (files.go lines 843-856), the defer of every Write:
the cache label is zeroed (the cached bytes stay), the metadata size grows by
the written length unconditionally, the position advances by the same amount,
and the metadata record is written back. -/
def afterWrite (rw : readWriter) (s : Store) (writtenLength : Nat) : readWriter × Store :=
  let m := { rw.meta with Size := rw.meta.Size + (writtenLength : Int) }
  ({ rw with
      meta := m
      cachedChunk := 0
      currentPosition := rw.currentPosition + (writtenLength : Int) },
   putFileMeta s m)

/-- readWriter.Write (files.go lines 769-856): the splicing body runs, then the
deferred afterWrite runs whether or not the body succeeded. The Bool reports
success. -/
def rwWrite (fcs : Nat) (rw : readWriter) (s : Store) (p : List Nat) :
    (Nat × Bool) × readWriter × Store :=
  match rwWriteBody fcs rw s p with
  | none =>
    let r := afterWrite rw s p.length
    ((0, false), r.1, r.2)
  | some s' =>
    let r := afterWrite rw s' p.length
    ((p.length, true), r.1, r.2)

/-- readWriter.WriteAt (files.go lines 903-911): a failed checkReadWriteAt (the
offset at or beyond the size) returns zero bytes and the error with nothing
written; otherwise the position moves to off and Write runs. -/
def rwWriteAt (fcs : Nat) (rw : readWriter) (s : Store) (p : List Nat)
    (off : Int) : Option ((Nat × Bool) × readWriter × Store) :=
  match checkReadWriteAt rw.meta off with
  | some _ => none
  | none => some (rwWrite fcs { rw with currentPosition := off } s p)

/-- The metadata a fresh writer handle carries (files.go lines 493-514): the
stored metadata of the file (or a fresh buildMeta when absent), with the related
pair recorded when a collection name is given. -/
def writerInitMeta (fcs : Nat) (s : Store) (id name colName documentID : String) : FileMeta :=
  if colName = "" then getFileMeta fcs s id name
  else
    { getFileMeta fcs s id name with
        RelatedDocumentCollection := colName
        RelatedDocumentID := documentID }

/-- FileStore.GetFileWriterRelated (files.go lines 493-522): refuses when the
stored metadata says a writer already owns the file, records the related pair
when a collection is given, marks the metadata in-write, and opens the handle at
the end of the file. -/
def getFileWriterRelated (fcs : Nat) (s : Store) (id name colName documentID : String) :
    Option (readWriter × Store) :=
  if (getFileMeta fcs s id name).inWrite then none
  else
    some
      ({ meta := { writerInitMeta fcs s id name colName documentID with inWrite := true },
         cache := none, cachedChunk := 0,
         currentPosition := (writerInitMeta fcs s id name colName documentID).Size,
         writer := true },
       putFileMeta (if colName = "" then s else addRelatedFileIDs s colName documentID id)
         { writerInitMeta fcs s id name colName documentID with inWrite := true })

/-- FileStore.GetFileReader (files.go lines 471-476): a read handle at position 0. -/
def getFileReader (fcs : Nat) (s : Store) (id : String) : readWriter :=
  { meta := getFileMeta fcs s id "", cache := none, cachedChunk := 0,
    currentPosition := 0, writer := false }

/-! ## C6 and C9: Seek -/

/-- C6: Seek with whence SeekEnd computes position = size - offset (the offset
is subtracted from the size, not added), returns that value, and leaves the
handle positioned there. -/
theorem seekEnd_subtracts_offset (rw : readWriter) (offset : Int) :
    (rwSeek rw offset seekEnd).1 = rw.meta.Size - offset ∧
    ((rwSeek rw offset seekEnd).2.2).currentPosition = rw.meta.Size - offset := by
  simp [rwSeek, seekStart, seekCurrent, seekEnd]

/-- The target position the Seek switch of files.go lines 915-924 computes for
a recognized whence. -/
def seekTarget (rw : readWriter) (offset : Int) (whence : Nat) : Int :=
  if whence = seekStart then offset
  else if whence = seekCurrent then rw.currentPosition + offset
  else rw.meta.Size - offset

theorem rwSeek_recognized (rw : readWriter) (offset : Int) (whence : Nat)
    (hw : whence = seekStart ∨ whence = seekCurrent ∨ whence = seekEnd) :
    rwSeek rw offset whence
      = (seekTarget rw offset whence,
         if seekTarget rw offset whence > rw.meta.Size ∨ seekTarget rw offset whence < 0
           then some FileErr.outOfFile else none,
         { rw with currentPosition := seekTarget rw offset whence }) := by
  rcases hw with h | h | h <;> subst h <;> rfl

/-- C9: for a recognized whence whose computed target is out of range (above the
size or negative), Seek returns the out-of-file error and nevertheless sets the
current position to the computed target; the previous position is not restored. -/
theorem seek_out_of_range_still_moves (rw : readWriter) (offset : Int) (whence : Nat)
    (hw : whence = seekStart ∨ whence = seekCurrent ∨ whence = seekEnd)
    (hout : seekTarget rw offset whence > rw.meta.Size ∨ seekTarget rw offset whence < 0) :
    rwSeek rw offset whence
      = (seekTarget rw offset whence, some FileErr.outOfFile,
         { rw with currentPosition := seekTarget rw offset whence }) := by
  rw [rwSeek_recognized rw offset whence hw, if_pos hout]

/-- A concrete handle over a five-byte file, used by witnesses. -/
def handle5 : readWriter :=
  { meta := { buildMeta 4 "f" "" with Size := 5 }, cache := none, cachedChunk := 0,
    currentPosition := 0, writer := false }

theorem seek_out_of_range_still_moves_witness :
    ((seekStart = seekStart ∨ seekStart = seekCurrent ∨ seekStart = seekEnd) ∧
     (seekTarget handle5 10 seekStart > handle5.meta.Size ∨
      seekTarget handle5 10 seekStart < 0)) ∧
    rwSeek handle5 10 seekStart
      = (seekTarget handle5 10 seekStart, some FileErr.outOfFile,
         { handle5 with currentPosition := seekTarget handle5 10 seekStart }) :=
  ⟨⟨by decide, by decide⟩,
   seek_out_of_range_still_moves handle5 10 seekStart (by decide) (by decide)⟩

/-! ## C7: ReadAt at or beyond the size -/

/-- C7: ReadAt with an offset at or beyond the file size transfers zero bytes
and returns the dedicated past-end error of checkReadWriteAt (the EndOfFile
condition of this API), leaving the handle untouched; no data and no other
error kind is produced. -/
theorem readAt_at_or_beyond_size (rw : readWriter) (s : Store) (destLen : Nat) (off : Int)
    (h : rw.meta.Size ≤ off) :
    rwReadAt rw s destLen off = (0, some FileErr.offsetTooBig, [], rw) := by
  simp [rwReadAt, checkReadWriteAt, h]

theorem readAt_at_or_beyond_size_witness :
    (handle5.meta.Size ≤ (5 : Int)) ∧
    rwReadAt handle5 [] 3 5 = (0, some FileErr.offsetTooBig, [], handle5) :=
  ⟨by decide, readAt_at_or_beyond_size handle5 [] 3 5 (by decide)⟩

/-! ## C10: Read at end of file -/

/-- The bytes the Read loop would accumulate from the given chunks: the head is
sliced from the inside offset on the first iteration, later chunks are taken
whole. -/
def loopData (inside : Nat) (first : Bool) (chunks : List (List Nat)) : List Nat :=
  match chunks, first with
  | [], _ => []
  | c :: rest, true => c.drop inside ++ rest.flatten
  | c :: rest, false => c ++ rest.flatten

theorem loopData_false (inside : Nat) (chunks : List (List Nat)) :
    loopData inside false chunks = chunks.flatten := by
  cases chunks <;> simp [loopData]

theorem loopData_cons (inside : Nat) (first : Bool) (c : List Nat) (rest : List (List Nat)) :
    loopData inside first (c :: rest) = (if first then c.drop inside else c) ++ rest.flatten := by
  cases first <;> simp [loopData]

/-- The bytes available to the handle from its current position: the effective
chunk sequence (cache included) flattened, the first chunk sliced at the inside
offset. For a well-formed store this is the file content from the current
position to the end. -/
def availableFrom (rw : readWriter) (s : Store) : List Nat :=
  loopData (getBlockAndInsidePosition rw.meta rw.currentPosition).2 true
    (effectiveChunks rw s (getBlockAndInsidePosition rw.meta rw.currentPosition).1)

theorem readLoop_exhausted (destLen inside : Nat) (hit : Bool) :
    ∀ (chunks : List (List Nat)) (buffer : List Nat) (first : Bool),
      buffer.length + (loopData inside first chunks).length < destLen →
      ∃ lf, readLoop destLen inside hit chunks buffer first
        = (buffer.length + (loopData inside first chunks).length, some FileErr.eof,
           buffer ++ loopData inside first chunks, lf) := by
  intro chunks
  induction chunks with
  | nil =>
    intro buffer first h
    refine ⟨none, ?_⟩
    simp [readLoop, loopData]
  | cons c rest ih =>
    intro buffer first h
    rw [loopData_cons] at h ⊢
    have hlt : ¬ (destLen ≤ (buffer ++ (if first then c.drop inside else c)).length) := by
      simp at h ⊢
      omega
    obtain ⟨lf, hres⟩ := ih (buffer ++ (if first then c.drop inside else c)) false (by
      rw [loopData_false]
      simp at h ⊢
      omega)
    rw [loopData_false] at hres
    refine ⟨lf.orElse (fun _ => if first && hit then none else some c), ?_⟩
    simp only [readLoop, if_neg hlt, hres]
    simp [List.append_assoc]
    omega

/-- C10: a Read that exhausts the file (fewer bytes are available from the
current position than the destination length) returns the bytes it copied
together with io.EOF and resets the current position to 0, so the next Read
starts from the beginning of the file instead of staying at end of file. -/
theorem read_exhausting_file_resets_position (rw : readWriter) (s : Store) (destLen : Nat)
    (h : (availableFrom rw s).length < destLen) :
    (rwRead rw s destLen).1 = (availableFrom rw s).length ∧
    (rwRead rw s destLen).2.1 = some FileErr.eof ∧
    (rwRead rw s destLen).2.2.1 = availableFrom rw s ∧
    ((rwRead rw s destLen).2.2.2).currentPosition = 0 := by
  obtain ⟨lf, hres⟩ := readLoop_exhausted destLen
    (getBlockAndInsidePosition rw.meta rw.currentPosition).2
    (match rw.cache with
      | some _ => decide (rw.cachedChunk =
          ((getBlockAndInsidePosition rw.meta rw.currentPosition).1 : Int))
      | none => false)
    (effectiveChunks rw s (getBlockAndInsidePosition rw.meta rw.currentPosition).1)
    [] true (by simpa [availableFrom] using h)
  simp only [rwRead, hres]
  simp [availableFrom]

/-- A concrete two-chunk store and reader for the C10 witness. -/
def store3 : Store :=
  [(buildFilePrefix "f" 1, StoreVal.bytes [1, 2]), (buildFilePrefix "f" 2, StoreVal.bytes [3])]

def reader3 : readWriter := getFileReader 2 store3 "f"

theorem read_exhausting_file_resets_position_witness :
    ((availableFrom reader3 store3).length < 5) ∧
    ((rwRead reader3 store3 5).1 = (availableFrom reader3 store3).length ∧
     (rwRead reader3 store3 5).2.1 = some FileErr.eof ∧
     (rwRead reader3 store3 5).2.2.1 = availableFrom reader3 store3 ∧
     ((rwRead reader3 store3 5).2.2.2).currentPosition = 0) :=
  ⟨by decide, read_exhausting_file_resets_position reader3 store3 5 (by decide)⟩

theorem put_read_roundtrip_witness :
    1 ≤ 2 ∧
    (∃ s', putFileRelated 2
        [(buildFilePrefix "f" 1, StoreVal.bytes [9, 9]),
         (buildFilePrefix "f" 3, StoreVal.bytes [7])]
        "f" "nm" [1, 2, 3, 4, 5] "col" "doc" = some ([1, 2, 3, 4, 5].length, s')
      ∧ readFile s' "f" = [1, 2, 3, 4, 5]) :=
  ⟨by decide,
   put_read_roundtrip 2 (by decide)
     [(buildFilePrefix "f" 1, StoreVal.bytes [9, 9]),
      (buildFilePrefix "f" 3, StoreVal.bytes [7])]
     "f" "nm" "col" "doc" [1, 2, 3, 4, 5]⟩

/-! ## C4 and C5: the size accounting of WriteAt

afterWrite adds the written length to the metadata size unconditionally
(files.go line 850), so a WriteAt strictly inside the file inflates the size
instead of keeping max(old size, off + len(p)); the size then stops being the
sum of the stored chunk payload lengths. The following store evaluates the code
on a ten-byte file with chunk size 4. -/

/-- A reachable store: PutFileRelated of the ten bytes 0..9 with chunk size 4. -/
def bugStore : Store :=
  ((putFileRelated 4 [] "f" "" [0, 1, 2, 3, 4, 5, 6, 7, 8, 9] "" "").map Prod.snd).getD []

/-- The writer handle GetFileWriter opens on that file, with its store. -/
def bugHandle : readWriter × Store :=
  (getFileWriterRelated 4 bugStore "f" "" "" "").getD (getFileReader 4 bugStore "f", bugStore)

/-- WriteAt of the single byte 77 at offset 0 (an overwrite strictly inside the
existing ten bytes). -/
def bugWriteAt : Option ((Nat × Bool) × readWriter × Store) :=
  rwWriteAt 4 bugHandle.1 bugHandle.2 [77] 0

/-- C4 (code bug): the WriteAt succeeds writing one byte at offset 0 of a
ten-byte file, after which the handle metadata size and the stored metadata size
are both 11 = old size + len(p), not max(old size, off + len(p)) = 10 as the
claim (and the spec contract) require. -/
theorem writeAt_size_not_max :
    (bugWriteAt.map (fun r => r.1)) = some (1, true) ∧
    (bugWriteAt.map (fun r => r.2.1.meta.Size)) = some 11 ∧
    (bugWriteAt.map (fun r => (getFileMeta 4 r.2.2 "f" "").Size)) = some 11 ∧
    ¬ ((11 : Int) = max 10 (0 + 1)) := by
  refine ⟨by decide, by decide, by decide, by decide⟩

/-- C5 (code bug): before the WriteAt the size invariant holds (metadata size 10
equals the sum 10 of the chunk payload lengths); the successful interior WriteAt
leaves the chunk payloads summing to 10 but records metadata size 11, so the
invariant is broken after a successful writer-handle WriteAt. -/
theorem writeAt_breaks_size_invariant :
    (getFileMeta 4 bugStore "f" "").Size = 10 ∧
    (readFile bugStore "f").length = 10 ∧
    (bugWriteAt.map (fun r => (getFileMeta 4 r.2.2 "f" "").Size)) = some 11 ∧
    (bugWriteAt.map (fun r => (readFile r.2.2 "f").length)) = some 10 ∧
    ¬ ((11 : Int) = (10 : Int)) := by
  refine ⟨by decide, by decide, by decide, by decide, by decide⟩

end GoTinyDB
